import Mathlib

/-!
Verification of the MCTS agent in src/mcts_agent.cpp.

The embedding models the single translation unit mcts_agent.cpp.  The Board
collaborator is external to the repository (spec section 6), so it enters as a
record of its three consumed operations over an abstract state type.  The
mt19937 generator is modelled as an abstract stream of naturals together with a
position; a draw of uniform_int_distribution(0, n-1) reads the stream at the
current position modulo n and advances the position.  The wall-clock loop of
choose_move (lines 47-93) is modelled by the number of iterations the clock
check lets through.  double arithmetic is modelled by exact real arithmetic,
with the IEEE special values that the source can actually produce (NaN from
0.0/0.0 and from sqrt(log 0), infinity from a positive numerator over zero)
represented explicitly by dedicated constructors, since the source compares
such values with the greater-than operator.  Verbose tracing is purely
observational output and is omitted.  Parallel mode spawns threads; the
embedding covers the single-threaded mode, in which the loop body runs one
playout and one backpropagation per iteration.
-/

namespace Mcts

/-- Cell_state marker enum consumed from the board collaborator: an empty cell
or one of the two players. -/
inductive Cell_state where
  | Empty : Cell_state
  | Blue : Cell_state
  | Red : Cell_state
deriving DecidableEq

/-- Board contract (spec section 6): legal-move enumeration, move application
and win detection over an abstract board state type.  Copies of a board value
are independent by value semantics. -/
structure Game (B : Type) where
  get_valid_moves : B → List (ℤ × ℤ)
  make_move : B → ℤ × ℤ → Cell_state → B
  check_winner : B → Cell_state

/-- Model of the mt19937 member random_generator: an abstract stream of
naturals and a read position. -/
structure Rng where
  stream : ℕ → ℕ
  pos : ℕ

/-- One draw of uniform_int_distribution(0, n-1) at line 203-204: a value below
n (for positive n) obtained from the stream, advancing the generator. -/
def Rng.draw (r : Rng) (n : ℕ) : ℕ × Rng :=
  (r.stream r.pos % n, ⟨r.stream, r.pos + 1⟩)

/-- Statistics node, lines 22-29: counters, the move it represents and the
associated player.  The parent pointer and the owned child list are modelled
structurally by the one-level Tree below: children live in the root's list and
the backpropagation walk from a child always continues to the root. -/
structure Node where
  win_count : ℕ
  visit_count : ℕ
  move : ℤ × ℤ
  player : Cell_state
deriving DecidableEq

/-- Node constructor, lines 22-29: both counters start at zero. -/
def Node.init (player : Cell_state) (move : ℤ × ℤ) : Node :=
  ⟨0, 0, move, player⟩

/-- The statistics tree built by choose_move: the root plus its expanded
children (the source only ever expands the root, spec section 9). -/
structure Tree where
  root : Node
  child_nodes : List Node

/-- The player flip at line 201: the ternary makes every non-Blue state Red's
predecessor, so Blue maps to Red and both Red and Empty map to Blue. -/
def next_player (c : Cell_state) : Cell_state :=
  if c = Cell_state.Blue then Cell_state.Red else Cell_state.Blue

/-- Failure points of simulate_random_playout.  empty_move_draw marks line
203-204 reached with an empty legal-move list: the source then builds
uniform_int_distribution(0, -1) and indexes an empty vector, which is
undefined behavior, not a reported error.  out_of_fuel is the artifact of
bounding the unbounded source loop by a fuel parameter. -/
inductive Sim_failure where
  | empty_move_draw : Sim_failure
  | out_of_fuel : Sim_failure
deriving DecidableEq

/-- The while loop of simulate_random_playout, lines 199-221: while the board
reports no winner, flip the player, draw a random legal move, apply it, and
break as soon as a winner appears.  The loop is bounded by fuel; the winner
check at the loop head is evaluated before fuel is consumed, exactly as the
source checks the condition before running the body. -/
def playout_loop {B : Type} (G : Game B) :
    ℕ → Cell_state → B → Rng → Except Sim_failure (Cell_state × Rng)
  | fuel, current_player, board, rng =>
    if G.check_winner board = Cell_state.Empty then
      match fuel with
      | 0 => .error .out_of_fuel
      | fuel2 + 1 =>
        match G.get_valid_moves board with
        | [] => .error .empty_move_draw
        | m :: ms =>
          if G.check_winner (G.make_move board
              ((m :: ms).getD (rng.draw (m :: ms).length).1 (0, 0))
              (next_player current_player)) = Cell_state.Empty then
            playout_loop G fuel2 (next_player current_player)
              (G.make_move board
                ((m :: ms).getD (rng.draw (m :: ms).length).1 (0, 0))
                (next_player current_player))
              (rng.draw (m :: ms).length).2
          else
            .ok (next_player current_player, (rng.draw (m :: ms).length).2)
    else
      .ok (current_player, rng)

/-- simulate_random_playout, lines 190-224: the node's move is applied for the
node's player on the private board copy (the board parameter is taken by
value), then the random playout loop runs; the player that was current when a
winner was first seen is returned together with the advanced generator. -/
def simulate_random_playout {B : Type} (G : Game B) (node : Node) (board : B)
    (rng : Rng) (fuel : ℕ) : Except Sim_failure (Cell_state × Rng) :=
  playout_loop G fuel node.player (G.make_move board node.move node.player) rng

/-- One counter update of backpropagate, lines 233-238: visit_count always
gains one, win_count gains one exactly when the winner matches the node's
player, both inside the same lock acquisition. -/
def bp_update (n : Node) (winner : Cell_state) : Node :=
  { n with
    visit_count := n.visit_count + 1,
    win_count := n.win_count + (if winner = n.player then 1 else 0) }

/-- backpropagate, lines 228-247, on the one-level tree: the walk starts at
the chosen child (position i in the root's list) and continues through its
parent pointer to the root, updating each node's counters once.  An index
beyond the list leaves the children unchanged. -/
def backpropagate (t : Tree) (i : ℕ) (winner : Cell_state) : Tree :=
  ⟨bp_update t.root winner,
   t.child_nodes.set i (bp_update (t.child_nodes.getD i (Node.init Cell_state.Empty (0, 0))) winner)⟩

/-- expand_node, lines 134-147: one child per legal move reported by the
board, carrying the expanding node's own player (not the opponent) and the
move, appended in board order; the parent pointer of each child is the
expanding node, modelled by placing the children in the expanding node's
list. -/
def expand_node {B : Type} (G : Game B) (player : Cell_state) (board : B) : List Node :=
  (G.get_valid_moves board).map (fun m => Node.init player m)

/-- The root construction at line 37 plus the expansion call at line 44: the
root carries the player to move and the sentinel move (-1, -1), and its
children are the expansion of the board's legal moves. -/
def init_tree {B : Type} (G : Game B) (player : Cell_state) (board : B) : Tree :=
  ⟨Node.init player (-1, -1), expand_node G player board⟩

/-- The largest finite double, std::numeric_limits<double>::max() at line 151,
as an exact real: (2 - 2 to the -52) times 2 to the 1023.  It is a finite
value, not infinity. -/
noncomputable def DBL_MAX : ℝ :=
  (2 - 2 ^ (-(52 : ℤ))) * 2 ^ (1023 : ℕ)

/-- Value space of a UCT score as the source's double arithmetic produces it:
a real number, or the NaN arising at line 155 when parent visit_count is 0
(std::log(0) is negative infinity, whose quotient passed to std::sqrt gives
NaN, which propagates through the products and sums). -/
inductive UVal where
  | nan : UVal
  | fin : ℝ → UVal

/-- The IEEE greater-than comparison on scores as used at line 170: any
comparison against NaN is false, and finite values compare as reals. -/
def UVal.ugt : UVal → UVal → Prop
  | .fin a, .fin b => b < a
  | _, _ => False

/-- calculate_uct_score, lines 149-157: an unvisited child scores
DBL_MAX (the largest finite double, printed as infinity by the tracing code);
a visited child scores win ratio plus exploration term, which is NaN when the
parent was never visited and otherwise a real number. -/
noncomputable def calculate_uct_score (ef : ℝ) (child_node parent_node : Node) : UVal :=
  if child_node.visit_count = 0 then UVal.fin DBL_MAX
  else if parent_node.visit_count = 0 then UVal.nan
  else UVal.fin ((child_node.win_count : ℝ) / (child_node.visit_count : ℝ) +
    ef * Real.sqrt (Real.log (parent_node.visit_count : ℝ) / (child_node.visit_count : ℝ)))

/-- The real value of a UCT score in the cases where the source produces a
real number (every case with a visited parent): DBL_MAX for an unvisited
child, the UCT formula otherwise. -/
noncomputable def uct_val (ef : ℝ) (child_node parent_node : Node) : ℝ :=
  if child_node.visit_count = 0 then DBL_MAX
  else (child_node.win_count : ℝ) / (child_node.visit_count : ℝ) +
    ef * Real.sqrt (Real.log (parent_node.visit_count : ℝ) / (child_node.visit_count : ℝ))

open Classical in
/-- The scan of select_child, lines 165-175: walk the remaining children
left to right carrying the index of the next child, the best index, the best
node and the best score, replacing the best only on a strictly greater score.
Pointer identity of the C++ best_child is modelled by carrying the child's
position in the root's list. -/
noncomputable def select_aux (ef : ℝ) (parent_node : Node) :
    List Node → ℕ → ℕ → Node → UVal → ℕ × Node
  | [], _, best_index, best_node, _ => (best_index, best_node)
  | c :: rest, ci, best_index, best_node, max_score =>
    if UVal.ugt (calculate_uct_score ef c parent_node) max_score then
      select_aux ef parent_node rest (ci + 1) ci c (calculate_uct_score ef c parent_node)
    else
      select_aux ef parent_node rest (ci + 1) best_index best_node max_score

/-- select_child, lines 159-188: the first child seeds the scan (line 162
indexes child_nodes[0], which on an empty list is an out-of-bounds vector
access, undefined behavior, modelled as none), and the loop starts from the
second child. -/
noncomputable def select_child (ef : ℝ) (parent_node : Node) :
    List Node → Option (ℕ × Node)
  | [] => none
  | c :: rest => some (select_aux ef parent_node rest 1 0 c (calculate_uct_score ef c parent_node))

/-- Value space of the final-decision win ratio, lines 102: the double
cast of win_count divided by visit_count.  With visit_count 0 this divides by
zero: 0.0/0.0 is NaN and a positive numerator gives infinity. -/
inductive DVal where
  | nan : DVal
  | fin : ℚ → DVal
  | inf : DVal
deriving DecidableEq

/-- IEEE greater-than on final win ratios as used at line 116: NaN compares
false on either side, infinity is above every rational, rationals compare
exactly. -/
def DVal.dgt : DVal → DVal → Bool
  | .nan, _ => false
  | _, .nan => false
  | .inf, .inf => false
  | .inf, .fin _ => true
  | .fin _, .inf => false
  | .fin a, .fin b => decide (b < a)

/-- The win ratio computed at line 102 in double arithmetic: NaN for an
unvisited child with zero wins, infinity for the impossible unvisited child
with positive wins, and the exact rational otherwise. -/
def ratio_val (n : Node) : DVal :=
  if n.visit_count = 0 then (if n.win_count = 0 then DVal.nan else DVal.inf)
  else DVal.fin ((n.win_count : ℚ) / (n.visit_count : ℚ))

/-- The exact win ratio of a visited child. -/
def ratioQ (n : Node) : ℚ :=
  (n.win_count : ℚ) / (n.visit_count : ℚ)

/-- The final-decision scan of choose_move, lines 100-121: walk the root's
children left to right, keeping the first child whose ratio strictly exceeds
the running maximum, which starts at -1 with no child selected. -/
def decide_aux : List Node → DVal → Option Node → Option Node
  | [], _, best_child => best_child
  | c :: rest, max_win_ratio, best_child =>
    if (ratio_val c).dgt max_win_ratio then decide_aux rest (ratio_val c) (some c)
    else decide_aux rest max_win_ratio best_child

/-- The whole deciding step: the scan seeded with max ratio -1 and no best
child, as at lines 98-99. -/
def decide_best (children : List Node) : Option Node :=
  decide_aux children (DVal.fin (-1)) none

/-- Errors choose_move can surface.  insufficient_statistics is the
runtime_error thrown at line 124.  empty_child_access marks the out-of-bounds
vector access child_nodes[0] in select_child on a childless root (line 162),
which in the source is undefined behavior rather than an exception.
simulation_failure propagates a playout that could not draw a move (also
undefined behavior in the source) or ran out of fuel in the model. -/
inductive Mcts_error where
  | insufficient_statistics : Mcts_error
  | empty_child_access : Mcts_error
  | simulation_failure : Sim_failure → Mcts_error
deriving DecidableEq

/-- The timed search loop of choose_move, lines 47-93, in single-threaded
mode, with the wall-clock budget modelled as the number of iterations the
clock check lets through: each iteration selects a child of the root, runs one
random playout from it on a fresh copy of the caller's board, and
backpropagates the winner from the child to the root. -/
noncomputable def mcts_iterate {B : Type} (G : Game B) (ef : ℝ) (fuel : ℕ) (board : B) :
    ℕ → Tree → Rng → Except Mcts_error Tree × Rng
  | 0, t, rng => (.ok t, rng)
  | n + 1, t, rng =>
    match select_child ef t.root t.child_nodes with
    | none => (.error .empty_child_access, rng)
    | some (i, chosen_child) =>
      match simulate_random_playout G chosen_child board rng fuel with
      | .error f => (.error (.simulation_failure f), rng)
      | .ok (playout_winner, rng2) =>
        mcts_iterate G ef fuel board n (backpropagate t i playout_winner) rng2

/-- choose_move, lines 31-132, single-threaded: build the root, expand it
once from the caller's board, run the timed loop, then scan the children for
the best empirical win ratio; with no best child throw the
insufficient-statistics error.  The caller's board is read only; the advanced
generator is returned alongside the result. -/
noncomputable def choose_move {B : Type} (G : Game B) (ef : ℝ) (board : B)
    (player : Cell_state) (iterations fuel : ℕ) (rng : Rng) :
    Except Mcts_error (ℤ × ℤ) × Rng :=
  match mcts_iterate G ef fuel board iterations (init_tree G player board) rng with
  | (.error e, rng2) => (.error e, rng2)
  | (.ok t, rng2) =>
    match decide_best t.child_nodes with
    | none => (.error .insufficient_statistics, rng2)
    | some best_child => (.ok best_child.move, rng2)

/-- The caller-visible state around one choose_move call: the caller's board
instance and the agent's generator. -/
structure Caller_state (B : Type) where
  board : B
  rng : Rng

/-- One choose_move call as the caller observes it: the board is passed by
const reference and every playout works on its own by-value copy, so only the
generator component of the caller-visible state changes. -/
noncomputable def choose_move_call {B : Type} (G : Game B) (ef : ℝ)
    (player : Cell_state) (iterations fuel : ℕ) (s : Caller_state B) :
    Except Mcts_error (ℤ × ℤ) × Caller_state B :=
  (choose_move G ef s.board player iterations fuel s.rng |>.1,
   ⟨s.board, (choose_move G ef s.board player iterations fuel s.rng).2⟩)

/-- Modelled from the spec: the rollout procedure of spec section 4.4 steps
2 and 3, as a relation between the position after the node's own move and the
returned winner.  While the board reports no winner, flip to the opposing
player, pick one legal move at random, apply it; the player that is current
when a winner is first detected is returned.  This is the reference against
which simulate_random_playout is checked. -/
inductive Playout_spec {B : Type} (G : Game B) : Cell_state → B → Rng → Cell_state → Prop
  | done : ∀ current_player board rng, G.check_winner board ≠ Cell_state.Empty →
      Playout_spec G current_player board rng current_player
  | step : ∀ current_player board rng p, G.check_winner board = Cell_state.Empty →
      G.get_valid_moves board ≠ [] →
      Playout_spec G (next_player current_player)
        (G.make_move board
          ((G.get_valid_moves board).getD (rng.draw (G.get_valid_moves board).length).1 (0, 0))
          (next_player current_player))
        (rng.draw (G.get_valid_moves board).length).2 p →
      Playout_spec G current_player board rng p

/-- A fixed concrete generator stream for concrete evaluations. -/
def rng0 : Rng := ⟨fun _ => 0, 0⟩

/-- A one-move game: from board state 0 the only legal move is (0, 0), any
move bumps the state, and every nonzero state is a win for Blue.  Used to
evaluate the agent on a concrete board. -/
def one_move_game : Game ℕ :=
  ⟨fun b => if b = 0 then [(0, 0)] else [],
   fun b _ _ => b + 1,
   fun b => if b = 0 then Cell_state.Empty else Cell_state.Blue⟩

/-- A stalemate game: no state has a legal move and no state has a winner.
This is the empty-frontier scenario of the spec. -/
def stalemate_game : Game ℕ :=
  ⟨fun _ => [], fun b _ _ => b, fun _ => Cell_state.Empty⟩

/-- A game that stalls right after the first move: state 0 has one legal
move, every move bumps the state, later states have no legal moves, and no
state ever has a winner.  Drives the playout into its empty-draw point. -/
def stall_game : Game ℕ :=
  ⟨fun b => if b = 0 then [(0, 0)] else [],
   fun b _ _ => b + 1,
   fun _ => Cell_state.Empty⟩

/-- Concrete parent for the selection counterexample: visited three times. -/
def cx_parent : Node := ⟨0, 3, (-1, -1), Cell_state.Blue⟩

/-- Concrete first child for the selection counterexample: visited once. -/
def cx_child0 : Node := ⟨0, 1, (0, 0), Cell_state.Blue⟩

/-- Concrete second child for the selection counterexample: never visited. -/
def cx_child1 : Node := ⟨0, 0, (1, 1), Cell_state.Blue⟩

/-- The per-node counter invariant of spec section 3. -/
def Tree.inv (t : Tree) : Prop :=
  t.root.win_count ≤ t.root.visit_count ∧
  ∀ c ∈ t.child_nodes, c.win_count ≤ c.visit_count

theorem bp_update_le (n : Node) (w : Cell_state) (h : n.win_count ≤ n.visit_count) :
    (bp_update n w).win_count ≤ (bp_update n w).visit_count := by
  simp only [bp_update]
  split <;> omega

theorem getD_le (l : List Node) (i : ℕ) (d : Node)
    (hl : ∀ c ∈ l, c.win_count ≤ c.visit_count) (hd : d.win_count ≤ d.visit_count) :
    (l.getD i d).win_count ≤ (l.getD i d).visit_count := by
  rcases Nat.lt_or_ge i l.length with h | h
  · rw [List.getD_eq_getElem?_getD, List.getElem?_eq_getElem h, Option.getD_some]
    exact hl _ (List.getElem_mem h)
  · rw [List.getD_eq_getElem?_getD, List.getElem?_eq_none h, Option.getD_none]
    exact hd

theorem backpropagate_inv (t : Tree) (i : ℕ) (w : Cell_state) (h : t.inv) :
    (backpropagate t i w).inv := by
  obtain ⟨hr, hc⟩ := h
  refine ⟨bp_update_le _ _ hr, ?_⟩
  intro c hmem
  simp only [backpropagate] at hmem
  rcases List.mem_or_eq_of_mem_set hmem with h1 | h1
  · exact hc _ h1
  · rw [h1]
    exact bp_update_le _ _ (getD_le _ _ _ hc (Nat.le_refl 0))

theorem mcts_iterate_inv {B : Type} (G : Game B) (ef : ℝ) (fuel : ℕ) (board : B) :
    ∀ (N : ℕ) (t : Tree) (rng : Rng) (t2 : Tree) (rng2 : Rng), t.inv →
      mcts_iterate G ef fuel board N t rng = (Except.ok t2, rng2) → t2.inv := by
  intro N
  induction N with
  | zero =>
    intro t rng t2 rng2 hinv h
    simp only [mcts_iterate, Prod.mk.injEq, Except.ok.injEq] at h
    rw [← h.1]
    exact hinv
  | succ n ih =>
    intro t rng t2 rng2 hinv h
    simp only [mcts_iterate] at h
    split at h
    · simp at h
    · next i chosen hsel =>
        split at h
        · simp at h
        · next w rng3 hsim =>
            exact ih _ _ _ _ (backpropagate_inv t i w hinv) h

/-- C1: every node of the statistics tree satisfies 0 le win_count le
visit_count at every observable point: both counters start at zero at node
construction; one backpropagation update adds exactly one to visit_count and
adds one to win_count exactly when the winner matches the node's player;
backpropagation preserves the invariant on the whole tree; and the invariant
is preserved through any number of search iterations.  (Nonnegativity is
carried by the counters living in the naturals, matching the spec's
non-negative integer counters.) -/
theorem c1_counters_invariant :
    (∀ (player : Cell_state) (mv : ℤ × ℤ),
      (Node.init player mv).win_count = 0 ∧ (Node.init player mv).visit_count = 0) ∧
    (∀ (n : Node) (w : Cell_state),
      (bp_update n w).visit_count = n.visit_count + 1 ∧
      (bp_update n w).win_count = n.win_count + (if w = n.player then 1 else 0)) ∧
    (∀ (t : Tree) (i : ℕ) (w : Cell_state), t.inv → (backpropagate t i w).inv) ∧
    (∀ (B : Type) (G : Game B) (ef : ℝ) (fuel : ℕ) (board : B) (N : ℕ)
      (t : Tree) (rng : Rng) (t2 : Tree) (rng2 : Rng), t.inv →
      mcts_iterate G ef fuel board N t rng = (Except.ok t2, rng2) → t2.inv) :=
  ⟨fun _ _ => ⟨rfl, rfl⟩,
   fun _ _ => ⟨rfl, rfl⟩,
   backpropagate_inv,
   fun B G ef fuel board N t rng t2 rng2 =>
     @mcts_iterate_inv B G ef fuel board N t rng t2 rng2⟩

/-- Witness for C1 at a concrete tree: the invariant holds before and after a
concrete backpropagation step. -/
theorem c1_witness :
    Tree.inv ⟨Node.init Cell_state.Blue (-1, -1), [Node.init Cell_state.Blue (0, 0)]⟩ ∧
    Tree.inv (backpropagate
      ⟨Node.init Cell_state.Blue (-1, -1), [Node.init Cell_state.Blue (0, 0)]⟩
      0 Cell_state.Blue) := by
  have h0 : Tree.inv ⟨Node.init Cell_state.Blue (-1, -1), [Node.init Cell_state.Blue (0, 0)]⟩ := by
    refine ⟨Nat.le_refl 0, ?_⟩
    intro c hc
    rw [List.mem_singleton] at hc
    rw [hc]
    exact Nat.le_refl 0
  exact ⟨h0, c1_counters_invariant.2.2.1 _ 0 Cell_state.Blue h0⟩

/-- C9: expanding a node reads back exactly the board's legal-move list (in
order, hence as a set with no duplicates and no omissions whenever the board
reports distinct moves), every created child carries the expanding node's own
player and fresh counters, and the children are exactly the ones stored in
the expanding root's child list (the structural rendering of the parent
pointer). -/
theorem c9_expand_roundtrip {B : Type} (G : Game B) (player : Cell_state) (board : B) :
    ((expand_node G player board).map Node.move = G.get_valid_moves board) ∧
    (∀ c ∈ expand_node G player board,
      c.player = player ∧ c.win_count = 0 ∧ c.visit_count = 0) ∧
    ((init_tree G player board).child_nodes = expand_node G player board) ∧
    ((G.get_valid_moves board).Nodup → ((expand_node G player board).map Node.move).Nodup) := by
  have hmap : (expand_node G player board).map Node.move = G.get_valid_moves board := by
    rw [expand_node, List.map_map]
    exact List.map_id' _
  refine ⟨hmap, ?_, rfl, ?_⟩
  · intro c hc
    rw [expand_node, List.mem_map] at hc
    obtain ⟨m, _, hm⟩ := hc
    rw [← hm]
    exact ⟨rfl, rfl, rfl⟩
  · intro hnd
    rw [hmap]
    exact hnd

/-- Witness for C9 on a concrete board with a duplicate-free move list. -/
theorem c9_witness :
    (one_move_game.get_valid_moves 0).Nodup ∧
    ((expand_node one_move_game Cell_state.Blue 0).map Node.move).Nodup :=
  ⟨by decide, (c9_expand_roundtrip one_move_game Cell_state.Blue 0).2.2.2 (by decide)⟩

/-- C10: the caller-visible board component of the state is unchanged by a
choose_move call: the board enters by const reference and every playout works
on its own by-value copy, so only the generator component moves. -/
theorem c10_board_unchanged {B : Type} (G : Game B) (ef : ℝ) (player : Cell_state)
    (iterations fuel : ℕ) (s : Caller_state B) :
    (choose_move_call G ef player iterations fuel s).2.board = s.board := rfl

/-- C7: evaluating the playout at a stalemate position (no winner, no legal
move after the node's own move) runs into the draw over an empty legal-move
list.  In the source this point is uniform_int_distribution(0, -1) followed
by indexing an empty vector, which is undefined behavior, not the distinct
reported failure the claim requires. -/
theorem c7_stalemate_draw_eval :
    simulate_random_playout stall_game (Node.init Cell_state.Blue (0, 0)) 0 rng0 5 =
      Except.error Sim_failure.empty_move_draw := rfl

/-- C5: on a board with zero legal moves, choose_move with a positive budget
reaches the out-of-bounds child_nodes[0] access inside select_child
(undefined behavior in the source), and with a zero budget it throws the
insufficient-statistics runtime_error; in neither case does a distinct
no-legal-moves error exist or get surfaced right after expansion. -/
theorem c5_no_legal_moves_eval :
    ((choose_move stalemate_game 0 0 Cell_state.Blue 1 0 rng0).1 =
      Except.error Mcts_error.empty_child_access) ∧
    ((choose_move stalemate_game 0 0 Cell_state.Blue 0 0 rng0).1 =
      Except.error Mcts_error.insufficient_statistics) :=
  ⟨rfl, rfl⟩

/-- Counterexample to C6 as stated: at a board with zero legal moves and a
positive budget, no root child has a positive visit count (the root has no
children at all), yet choose_move does not fail with the
insufficient-statistics error: it reaches the out-of-bounds child access in
select_child before the budget ever elapses. -/
theorem c6_counterexample :
    (init_tree stalemate_game Cell_state.Red 0).child_nodes = [] ∧
    ((choose_move stalemate_game 0 0 Cell_state.Red 2 0 rng0).1 =
      Except.error Mcts_error.empty_child_access) ∧
    Mcts_error.empty_child_access ≠ Mcts_error.insufficient_statistics :=
  ⟨rfl, rfl, by decide⟩

theorem playout_loop_sound {B : Type} (G : Game B) :
    ∀ (fuel : ℕ) (cur : Cell_state) (board : B) (rng : Rng) (p : Cell_state) (rng2 : Rng),
      playout_loop G fuel cur board rng = Except.ok (p, rng2) →
      Playout_spec G cur board rng p := by
  intro fuel
  induction fuel with
  | zero =>
    intro cur board rng p rng2 h
    rw [playout_loop] at h
    by_cases hw : G.check_winner board = Cell_state.Empty
    · rw [if_pos hw] at h
      simp at h
    · rw [if_neg hw] at h
      obtain ⟨h1, h2⟩ : cur = p ∧ rng = rng2 := by simpa using h
      rw [← h1]
      exact Playout_spec.done _ _ _ hw
  | succ fuel2 ih =>
    intro cur board rng p rng2 h
    rw [playout_loop] at h
    split at h
    next hw =>
      split at h
      next => simp at h
      next m ms hmv =>
        split at h
        next hw2 =>
          refine Playout_spec.step cur board rng p hw (by rw [hmv]; exact List.cons_ne_nil m ms) ?_
          rw [hmv]
          exact ih _ _ _ _ _ h
        next hw2 =>
          obtain ⟨h1, h2⟩ : next_player cur = p ∧ (rng.draw (m :: ms).length).2 = rng2 := by
            simpa using h
          refine Playout_spec.step cur board rng p hw (by rw [hmv]; exact List.cons_ne_nil m ms) ?_
          rw [hmv, ← h1]
          exact Playout_spec.done _ _ _ hw2
    next hw =>
      obtain ⟨h1, h2⟩ : cur = p ∧ rng = rng2 := by simpa using h
      rw [← h1]
      exact Playout_spec.done _ _ _ hw

/-- C4: the rollout applies the node's own move for the node's own player on
its private board copy first; if that move already decided the game the
playout returns the node's own player at once; and every successful playout
result is produced by the spec's loop: while no winner is reported, flip to
the opposing player, draw one legal move, apply it for that player, and
return whoever was current when a winner was first detected. -/
theorem c4_playout_behavior {B : Type} (G : Game B) (node : Node) (board : B)
    (rng : Rng) (fuel : ℕ) :
    (G.check_winner (G.make_move board node.move node.player) ≠ Cell_state.Empty →
      simulate_random_playout G node board rng fuel = Except.ok (node.player, rng)) ∧
    (∀ (p : Cell_state) (rng2 : Rng),
      simulate_random_playout G node board rng fuel = Except.ok (p, rng2) →
      Playout_spec G node.player (G.make_move board node.move node.player) rng p) := by
  constructor
  · intro hw
    cases fuel with
    | zero => rw [simulate_random_playout, playout_loop, if_neg hw]
    | succ f => rw [simulate_random_playout, playout_loop, if_neg hw]
  · intro p rng2 h
    exact playout_loop_sound G fuel _ _ _ _ _ h

theorem ratio_val_fin (n : Node) (h : n.visit_count ≠ 0) :
    ratio_val n = DVal.fin (ratioQ n) := by
  rw [ratio_val, if_neg h, ratioQ]

theorem dgt_fin_fin (a b : ℚ) : DVal.dgt (DVal.fin a) (DVal.fin b) = true ↔ b < a := by
  simp [DVal.dgt]

theorem ratioQ_nonneg (n : Node) : 0 ≤ ratioQ n :=
  div_nonneg (Nat.cast_nonneg _) (Nat.cast_nonneg _)

theorem decide_aux_some :
    ∀ (l : List Node) (m : DVal) (b : Node), ∃ r, decide_aux l m (some b) = some r := by
  intro l
  induction l with
  | nil => intro m b; exact ⟨b, rfl⟩
  | cons c rest ih =>
    intro m b
    rw [decide_aux]
    by_cases hc : (ratio_val c).dgt m = true
    · rw [if_pos hc]; exact ih _ c
    · rw [if_neg hc]; exact ih m b

theorem decide_aux_max :
    ∀ (l : List Node) (b : Node), b.visit_count ≠ 0 → (∀ c ∈ l, c.visit_count ≠ 0) →
      ∃ xs r ys, b :: l = xs ++ r :: ys ∧
        decide_aux l (ratio_val b) (some b) = some r ∧
        (∀ x ∈ xs, ratioQ x < ratioQ r) ∧
        (∀ y ∈ ys, ratioQ y ≤ ratioQ r) := by
  intro l
  induction l with
  | nil =>
    intro b hb _
    exact ⟨[], b, [], rfl, rfl, by simp, by simp⟩
  | cons c rest ih =>
    intro b hb hall
    have hc : c.visit_count ≠ 0 := hall c (List.mem_cons_self c rest)
    have hrest : ∀ x ∈ rest, x.visit_count ≠ 0 := fun x hx => hall x (List.mem_cons_of_mem c hx)
    rw [decide_aux]
    by_cases hgt : ratioQ b < ratioQ c
    · have hcond : (ratio_val c).dgt (ratio_val b) = true := by
        rw [ratio_val_fin c hc, ratio_val_fin b hb, dgt_fin_fin]
        exact hgt
      rw [if_pos hcond]
      obtain ⟨xs', r, ys', hsplit, hres, hxs, hys⟩ := ih c hc hrest
      refine ⟨b :: xs', r, ys', by rw [List.cons_append, ← hsplit], hres, ?_, hys⟩
      intro x hx
      rcases List.mem_cons.mp hx with h1 | h1
      · have hcle : ratioQ c ≤ ratioQ r := by
          have hmem : c ∈ xs' ++ r :: ys' := by rw [← hsplit]; exact List.mem_cons_self c rest
          rcases List.mem_append.mp hmem with h2 | h2
          · exact le_of_lt (hxs c h2)
          · rcases List.mem_cons.mp h2 with h3 | h3
            · rw [h3]
            · exact hys c h3
        rw [h1]
        exact lt_of_lt_of_le hgt hcle
      · exact hxs x h1
    · have hcond : ¬ (ratio_val c).dgt (ratio_val b) = true := by
        rw [ratio_val_fin c hc, ratio_val_fin b hb, dgt_fin_fin]
        exact hgt
      rw [if_neg hcond]
      obtain ⟨xs', r, ys', hsplit, hres, hxs, hys⟩ := ih b hb hrest
      cases xs' with
      | nil =>
        rw [List.nil_append] at hsplit
        injection hsplit with h1 h2
        refine ⟨[], r, c :: ys', ?_, hres, by simp, ?_⟩
        · rw [List.nil_append, ← h1, ← h2]
        · intro y hy
          rcases List.mem_cons.mp hy with h3 | h3
          · rw [h3, ← h1]
            exact le_of_not_lt hgt
          · exact hys y h3
      | cons x0 xs2 =>
        rw [List.cons_append] at hsplit
        injection hsplit with h1 h2
        have hbr : ratioQ b < ratioQ r := by
          have hx0 := hxs x0 (List.mem_cons_self x0 xs2)
          rw [← h1] at hx0
          exact hx0
        refine ⟨b :: c :: xs2, r, ys', ?_, hres, ?_, hys⟩
        · rw [List.cons_append, List.cons_append, ← h2]
        · intro x hx
          rcases List.mem_cons.mp hx with h3 | h3
          · rw [h3]; exact hbr
          · rcases List.mem_cons.mp h3 with h4 | h4
            · rw [h4]
              exact lt_of_le_of_lt (le_of_not_lt hgt) hbr
            · exact hxs x (List.mem_cons_of_mem x0 h4)

/-- C3: the deciding step scans the root's children left to right and keeps
the child with the strictly greatest empirical win ratio, the first maximum
winning ties: the chosen child splits the list so that everything before it
has a strictly smaller ratio and everything after it has a smaller-or-equal
ratio; and whenever the timed loop ends with a tree whose decision scan picks
a child, choose_move returns exactly that child's move. -/
theorem c3_best_ratio_decision :
    (∀ (children : List Node), children ≠ [] → (∀ c ∈ children, c.visit_count ≠ 0) →
      ∃ xs r ys, children = xs ++ r :: ys ∧
        decide_best children = some r ∧
        (∀ x ∈ xs, ratioQ x < ratioQ r) ∧
        (∀ y ∈ ys, ratioQ y ≤ ratioQ r)) ∧
    (∀ (B : Type) (G : Game B) (ef : ℝ) (board : B) (player : Cell_state)
      (N fuel : ℕ) (rng : Rng) (t : Tree) (rng2 : Rng) (r : Node),
      mcts_iterate G ef fuel board N (init_tree G player board) rng = (Except.ok t, rng2) →
      decide_best t.child_nodes = some r →
      choose_move G ef board player N fuel rng = (Except.ok r.move, rng2)) := by
  constructor
  · intro children hne hall
    cases children with
    | nil => exact absurd rfl hne
    | cons c rest =>
      have hc : c.visit_count ≠ 0 := hall c (List.mem_cons_self c rest)
      have hrest : ∀ x ∈ rest, x.visit_count ≠ 0 :=
        fun x hx => hall x (List.mem_cons_of_mem c hx)
      have hcond : (ratio_val c).dgt (DVal.fin (-1)) = true := by
        rw [ratio_val_fin c hc, dgt_fin_fin]
        exact lt_of_lt_of_le (by norm_num) (ratioQ_nonneg c)
      rw [decide_best, decide_aux, if_pos hcond]
      exact decide_aux_max rest c hc hrest
  · intro B G ef board player N fuel rng t rng2 r h1 h2
    simp only [choose_move, h1, h2]

/-- Witness for C3 at a concrete one-child list with a visited child. -/
theorem c3_witness :
    (([⟨1, 2, (0, 0), Cell_state.Blue⟩] : List Node) ≠ []) ∧
    (∀ c ∈ ([⟨1, 2, (0, 0), Cell_state.Blue⟩] : List Node), c.visit_count ≠ 0) ∧
    ∃ xs r ys, ([⟨1, 2, (0, 0), Cell_state.Blue⟩] : List Node) = xs ++ r :: ys ∧
      decide_best [⟨1, 2, (0, 0), Cell_state.Blue⟩] = some r ∧
      (∀ x ∈ xs, ratioQ x < ratioQ r) ∧
      (∀ y ∈ ys, ratioQ y ≤ ratioQ r) :=
  ⟨by simp, by decide, c3_best_ratio_decision.1 _ (by simp) (by decide)⟩

theorem DBL_MAX_pos : 0 < DBL_MAX := by
  rw [DBL_MAX]
  have h1 : (2 : ℝ) ^ (-(52 : ℤ)) ≤ 1 := by
    rw [zpow_neg]
    have h2 : (1 : ℝ) ≤ 2 ^ (52 : ℤ) := one_le_zpow₀ (by norm_num) (by norm_num)
    exact inv_le_one_of_one_le₀ h2
  have h3 : (0 : ℝ) < 2 - 2 ^ (-(52 : ℤ)) := by linarith
  have h4 : (0 : ℝ) < 2 ^ (1023 : ℕ) := by positivity
  exact mul_pos h3 h4

theorem uct_score_fin (ef : ℝ) (c parent : Node) (hp : parent.visit_count ≠ 0) :
    calculate_uct_score ef c parent = UVal.fin (uct_val ef c parent) := by
  rw [calculate_uct_score, uct_val]
  by_cases hc : c.visit_count = 0
  · rw [if_pos hc, if_pos hc]
  · rw [if_neg hc, if_neg hc, if_neg hp]

theorem select_aux_get (ef : ℝ) (parent : Node) :
    ∀ (l F : List Node) (ci bi : ℕ) (bn : Node) (ms : UVal),
      F[bi]? = some bn → (∀ j, l[j]? = F[ci + j]?) →
      ∃ i r, select_aux ef parent l ci bi bn ms = (i, r) ∧ F[i]? = some r := by
  intro l
  induction l with
  | nil =>
    intro F ci bi bn ms hb _
    exact ⟨bi, bn, rfl, hb⟩
  | cons c rest ih =>
    intro F ci bi bn ms hb hdrop
    have hc : F[ci]? = some c := by
      have h0 := hdrop 0
      simpa using h0.symm
    have hdrop2 : ∀ j, rest[j]? = F[ci + 1 + j]? := by
      intro j
      have hj := hdrop (j + 1)
      rw [List.getElem?_cons_succ] at hj
      rw [hj]
      congr 1
      omega
    rw [select_aux]
    by_cases hcond : UVal.ugt (calculate_uct_score ef c parent) ms
    · rw [if_pos hcond]
      exact ih F (ci + 1) ci c _ hc hdrop2
    · rw [if_neg hcond]
      exact ih F (ci + 1) bi bn ms hb hdrop2

theorem select_aux_max (ef : ℝ) (parent : Node) (hp : parent.visit_count ≠ 0) :
    ∀ (l : List Node) (ci bi : ℕ) (bn : Node),
      ∃ xs r ys, bn :: l = xs ++ r :: ys ∧
        (select_aux ef parent l ci bi bn (calculate_uct_score ef bn parent)).2 = r ∧
        (∀ x ∈ xs, uct_val ef x parent < uct_val ef r parent) ∧
        (∀ y ∈ ys, uct_val ef y parent ≤ uct_val ef r parent) := by
  intro l
  induction l with
  | nil =>
    intro ci bi bn
    exact ⟨[], bn, [], rfl, rfl, by simp, by simp⟩
  | cons c rest ih =>
    intro ci bi bn
    rw [select_aux]
    have hsc := uct_score_fin ef c parent hp
    have hsb := uct_score_fin ef bn parent hp
    by_cases hgt : uct_val ef bn parent < uct_val ef c parent
    · have hcond : UVal.ugt (calculate_uct_score ef c parent)
          (calculate_uct_score ef bn parent) := by
        rw [hsc, hsb]
        exact hgt
      rw [if_pos hcond]
      obtain ⟨xs', r, ys', hsplit, hres, hxs, hys⟩ := ih (ci + 1) ci c
      refine ⟨bn :: xs', r, ys', by rw [List.cons_append, ← hsplit], hres, ?_, hys⟩
      intro x hx
      rcases List.mem_cons.mp hx with h1 | h1
      · have hcle : uct_val ef c parent ≤ uct_val ef r parent := by
          have hmem : c ∈ xs' ++ r :: ys' := by
            rw [← hsplit]
            exact List.mem_cons_self c rest
          rcases List.mem_append.mp hmem with h2 | h2
          · exact le_of_lt (hxs c h2)
          · rcases List.mem_cons.mp h2 with h3 | h3
            · rw [h3]
            · exact hys c h3
        rw [h1]
        exact lt_of_lt_of_le hgt hcle
      · exact hxs x h1
    · have hcond : ¬ UVal.ugt (calculate_uct_score ef c parent)
          (calculate_uct_score ef bn parent) := by
        rw [hsc, hsb]
        exact hgt
      rw [if_neg hcond]
      obtain ⟨xs', r, ys', hsplit, hres, hxs, hys⟩ := ih (ci + 1) bi bn
      cases xs' with
      | nil =>
        rw [List.nil_append] at hsplit
        injection hsplit with h1 h2
        refine ⟨[], r, c :: ys', ?_, hres, by simp, ?_⟩
        · rw [List.nil_append, ← h1, ← h2]
        · intro y hy
          rcases List.mem_cons.mp hy with h3 | h3
          · rw [h3, ← h1]
            exact le_of_not_lt hgt
          · exact hys y h3
      | cons x0 xs2 =>
        rw [List.cons_append] at hsplit
        injection hsplit with h1 h2
        have hbr : uct_val ef bn parent < uct_val ef r parent := by
          have hx0 := hxs x0 (List.mem_cons_self x0 xs2)
          rw [← h1] at hx0
          exact hx0
        refine ⟨bn :: c :: xs2, r, ys', ?_, hres, ?_, hys⟩
        · rw [List.cons_append, List.cons_append, ← h2]
        · intro x hx
          rcases List.mem_cons.mp hx with h3 | h3
          · rw [h3]; exact hbr
          · rcases List.mem_cons.mp h3 with h4 | h4
            · rw [h4]
              exact lt_of_le_of_lt (le_of_not_lt hgt) hbr
            · exact hxs x (List.mem_cons_of_mem x0 h4)

/-- C2 (amended): with a visited parent, an unvisited child scores exactly
DBL_MAX, the largest finite double; the selection returns the first child
attaining the maximal score in a left-to-right scan with strict-improvement
updates (everything before the winner scores strictly less, everything after
scores no more); and whenever every visited child scores strictly below
DBL_MAX, the selection prefers an unvisited child if one exists. -/
theorem c2_uct_selection (ef : ℝ) (parent : Node) (children : List Node)
    (hp : parent.visit_count ≠ 0) :
    (∀ c : Node, c.visit_count = 0 → calculate_uct_score ef c parent = UVal.fin DBL_MAX) ∧
    (children ≠ [] →
      ∃ i r xs ys, select_child ef parent children = some (i, r) ∧
        children[i]? = some r ∧
        children = xs ++ r :: ys ∧
        (∀ x ∈ xs, uct_val ef x parent < uct_val ef r parent) ∧
        (∀ y ∈ ys, uct_val ef y parent ≤ uct_val ef r parent)) ∧
    ((∀ c ∈ children, c.visit_count ≠ 0 → uct_val ef c parent < DBL_MAX) →
      (∃ c ∈ children, c.visit_count = 0) →
      ∃ i r, select_child ef parent children = some (i, r) ∧ r.visit_count = 0) := by
  have key : children ≠ [] →
      ∃ i r xs ys, select_child ef parent children = some (i, r) ∧
        children[i]? = some r ∧
        children = xs ++ r :: ys ∧
        (∀ x ∈ xs, uct_val ef x parent < uct_val ef r parent) ∧
        (∀ y ∈ ys, uct_val ef y parent ≤ uct_val ef r parent) := by
    intro hne
    cases children with
    | nil => exact absurd rfl hne
    | cons c rest =>
      obtain ⟨i, r, hres, hget⟩ := select_aux_get ef parent rest (c :: rest) 1 0 c
        (calculate_uct_score ef c parent) (by simp) (by
          intro j
          rw [Nat.add_comm 1 j, List.getElem?_cons_succ])
      obtain ⟨xs, r2, ys, hsplit, hres2, hxs, hys⟩ := select_aux_max ef parent hp rest 1 0 c
      have hr : r2 = r := by rw [← hres2, hres]
      rw [hr] at hsplit hxs hys
      refine ⟨i, r, xs, ys, ?_, hget, hsplit, hxs, hys⟩
      rw [select_child, hres]
  refine ⟨?_, key, ?_⟩
  · intro c hc
    rw [calculate_uct_score, if_pos hc]
  · intro hlt hex
    have hne : children ≠ [] := by
      rintro rfl
      obtain ⟨c, hc, _⟩ := hex
      exact absurd hc (List.not_mem_nil c)
    obtain ⟨i, r, xs, ys, hsel, hget, hsplit, hxs, hys⟩ := key hne
    refine ⟨i, r, hsel, ?_⟩
    by_contra hrv
    have hrlt : uct_val ef r parent < DBL_MAX := by
      refine hlt r ?_ hrv
      rw [hsplit]
      exact List.mem_append_right _ (List.mem_cons_self r ys)
    obtain ⟨u, hu_mem, hu0⟩ := hex
    have hu_val : uct_val ef u parent = DBL_MAX := by rw [uct_val, if_pos hu0]
    rw [hsplit] at hu_mem
    rcases List.mem_append.mp hu_mem with h1 | h1
    · have hlt2 := hxs u h1
      rw [hu_val] at hlt2
      exact absurd (lt_trans hlt2 hrlt) (lt_irrefl _)
    · rcases List.mem_cons.mp h1 with h2 | h2
      · rw [h2] at hu0
        exact hrv hu0
      · have hle2 := hys u h2
        rw [hu_val] at hle2
        exact absurd (lt_of_le_of_lt hle2 hrlt) (lt_irrefl _)

/-- Witness for C2 at a concrete visited parent with one unvisited child. -/
theorem c2_witness :
    ((⟨0, 1, (-1, -1), Cell_state.Blue⟩ : Node).visit_count ≠ 0) ∧
    ∃ i r xs ys,
      select_child 0 ⟨0, 1, (-1, -1), Cell_state.Blue⟩ [Node.init Cell_state.Blue (0, 0)] =
        some (i, r) ∧
      ([Node.init Cell_state.Blue (0, 0)] : List Node)[i]? = some r ∧
      ([Node.init Cell_state.Blue (0, 0)] : List Node) = xs ++ r :: ys ∧
      (∀ x ∈ xs, uct_val 0 x ⟨0, 1, (-1, -1), Cell_state.Blue⟩ <
        uct_val 0 r ⟨0, 1, (-1, -1), Cell_state.Blue⟩) ∧
      (∀ y ∈ ys, uct_val 0 y ⟨0, 1, (-1, -1), Cell_state.Blue⟩ ≤
        uct_val 0 r ⟨0, 1, (-1, -1), Cell_state.Blue⟩) :=
  ⟨by decide,
   (c2_uct_selection 0 ⟨0, 1, (-1, -1), Cell_state.Blue⟩
     [Node.init Cell_state.Blue (0, 0)] (by decide)).2.1 (by simp)⟩

/-- Counterexample to C2 as stated: the unvisited-child sentinel is DBL_MAX,
the largest finite double, not positive infinity, and it does not dominate
every finite score.  With exploration factor DBL_MAX, a parent visited three
times, a first child visited once and a second child never visited, the first
child's finite score DBL_MAX times sqrt of log 3 exceeds the sentinel, so the
visited first child is selected even though an unvisited child exists. -/
theorem c2_counterexample :
    cx_child1.visit_count = 0 ∧
    cx_child0.visit_count ≠ 0 ∧
    select_child DBL_MAX cx_parent [cx_child0, cx_child1] = some (0, cx_child0) := by
  refine ⟨rfl, by decide, ?_⟩
  have hle : DBL_MAX ≤ uct_val DBL_MAX cx_child0 cx_parent := by
    have hlog : (1 : ℝ) ≤ Real.log 3 :=
      le_of_lt ((Real.lt_log_iff_exp_lt (by norm_num)).mpr
        (lt_trans Real.exp_one_lt_d9 (by norm_num)))
    have hsq : (1 : ℝ) ≤ Real.sqrt (Real.log 3) := Real.one_le_sqrt.mpr hlog
    have hmul : DBL_MAX * 1 ≤ DBL_MAX * Real.sqrt (Real.log 3) :=
      mul_le_mul_of_nonneg_left hsq (le_of_lt DBL_MAX_pos)
    rw [mul_one] at hmul
    rw [uct_val, if_neg (by decide : ¬ cx_child0.visit_count = 0)]
    norm_num [cx_child0, cx_parent]
    exact hmul
  have h0 : calculate_uct_score DBL_MAX cx_child0 cx_parent =
      UVal.fin (uct_val DBL_MAX cx_child0 cx_parent) :=
    uct_score_fin DBL_MAX cx_child0 cx_parent (by decide)
  have h1 : calculate_uct_score DBL_MAX cx_child1 cx_parent = UVal.fin DBL_MAX := rfl
  have hcond : ¬ UVal.ugt (calculate_uct_score DBL_MAX cx_child1 cx_parent)
      (calculate_uct_score DBL_MAX cx_child0 cx_parent) := by
    rw [h0, h1]
    exact not_lt.mpr hle
  rw [select_child, select_aux, if_neg hcond, select_aux]

theorem select_child_some (ef : ℝ) (parent : Node) (children : List Node)
    (hne : children ≠ []) :
    ∃ i r, select_child ef parent children = some (i, r) ∧ children[i]? = some r := by
  cases children with
  | nil => exact absurd rfl hne
  | cons c rest =>
    obtain ⟨i, r, hres, hget⟩ := select_aux_get ef parent rest (c :: rest) 1 0 c
      (calculate_uct_score ef c parent) (by simp) (by
        intro j
        rw [Nat.add_comm 1 j, List.getElem?_cons_succ])
    exact ⟨i, r, by rw [select_child, hres], hget⟩

theorem decide_aux_none_iff :
    ∀ (l : List Node) (m : ℚ),
      decide_aux l (DVal.fin m) none = none ↔
        ∀ c ∈ l, (ratio_val c).dgt (DVal.fin m) = false := by
  intro l
  induction l with
  | nil =>
    intro m
    simp [decide_aux]
  | cons c rest ih =>
    intro m
    rw [decide_aux]
    by_cases hb : (ratio_val c).dgt (DVal.fin m) = true
    · rw [if_pos hb]
      obtain ⟨r, hr⟩ := decide_aux_some rest (ratio_val c) c
      rw [hr]
      constructor
      · intro h
        exact absurd h (by simp)
      · intro h
        have hcf := h c (List.mem_cons_self c rest)
        rw [hb] at hcf
        exact absurd hcf (by simp)
    · have hbf : (ratio_val c).dgt (DVal.fin m) = false := Bool.eq_false_iff.mpr hb
      rw [if_neg hb, ih m]
      constructor
      · intro h x hx
        rcases List.mem_cons.mp hx with h1 | h1
        · rw [h1]; exact hbf
        · exact h x h1
      · intro h x hx
        exact h x (List.mem_cons_of_mem c hx)

theorem dgt_neg_one (c : Node) (hwv : c.win_count ≤ c.visit_count) :
    (ratio_val c).dgt (DVal.fin (-1)) = true ↔ c.visit_count ≠ 0 := by
  constructor
  · intro h hv
    have hw : c.win_count = 0 := Nat.le_zero.mp (hv ▸ hwv)
    rw [ratio_val, if_pos hv, if_pos hw] at h
    simp [DVal.dgt] at h
  · intro hv
    rw [ratio_val_fin c hv, dgt_fin_fin]
    exact lt_of_lt_of_le (by norm_num) (ratioQ_nonneg c)

theorem decide_best_none_iff (l : List Node)
    (hinv : ∀ c ∈ l, c.win_count ≤ c.visit_count) :
    decide_best l = none ↔ ∀ c ∈ l, c.visit_count = 0 := by
  rw [decide_best, decide_aux_none_iff]
  constructor
  · intro h c hc
    by_contra hv
    have htrue := (dgt_neg_one c (hinv c hc)).mpr hv
    rw [h c hc] at htrue
    exact absurd htrue (by simp)
  · intro h c hc
    have hv := h c hc
    have hw : c.win_count = 0 := Nat.le_zero.mp (hv ▸ hinv c hc)
    rw [ratio_val, if_pos hv, if_pos hw]
    rfl

theorem backpropagate_child_visited (t : Tree) (i : ℕ) (w : Cell_state)
    (hi : i < t.child_nodes.length) :
    ∃ c ∈ (backpropagate t i w).child_nodes, c.visit_count ≠ 0 := by
  refine ⟨bp_update (t.child_nodes.getD i (Node.init Cell_state.Empty (0, 0))) w, ?_, ?_⟩
  · exact List.mem_set t.child_nodes i hi _
  · simp [bp_update]

theorem backpropagate_props {B : Type} (G : Game B) (board : B) (player : Cell_state)
    (t : Tree) (i : ℕ) (w : Cell_state)
    (hprops : ∀ c ∈ t.child_nodes,
      c.player = player ∧ c.move ∈ G.get_valid_moves board ∧ c.win_count ≤ c.visit_count) :
    ∀ c ∈ (backpropagate t i w).child_nodes,
      c.player = player ∧ c.move ∈ G.get_valid_moves board ∧ c.win_count ≤ c.visit_count := by
  intro c hc
  simp only [backpropagate] at hc
  rcases List.mem_or_eq_of_mem_set hc with h1 | h1
  · exact hprops c h1
  · rcases Nat.lt_or_ge i t.child_nodes.length with hi | hi
    · have hmem : t.child_nodes.getD i (Node.init Cell_state.Empty (0, 0)) ∈ t.child_nodes := by
        rw [List.getD_eq_getElem?_getD, List.getElem?_eq_getElem hi, Option.getD_some]
        exact List.getElem_mem hi
      obtain ⟨hp, hm, hwv⟩ := hprops _ hmem
      rw [h1]
      refine ⟨hp, hm, bp_update_le _ _ hwv⟩
    · have hset : t.child_nodes.set i
          (bp_update (t.child_nodes.getD i (Node.init Cell_state.Empty (0, 0))) w) =
          t.child_nodes := List.set_eq_of_length_le hi
      rw [hset] at hc
      exact hprops c hc

theorem mcts_iterate_flow {B : Type} (G : Game B) (ef : ℝ) (fuel : ℕ) (board : B)
    (player : Cell_state)
    (hsim : ∀ c : Node, c.player = player → c.move ∈ G.get_valid_moves board →
      ∀ r : Rng, ∃ w r2, simulate_random_playout G c board r fuel = Except.ok (w, r2)) :
    ∀ (N : ℕ) (t : Tree) (rng : Rng),
      t.child_nodes ≠ [] →
      (∀ c ∈ t.child_nodes,
        c.player = player ∧ c.move ∈ G.get_valid_moves board ∧ c.win_count ≤ c.visit_count) →
      ∃ t2 rng2, mcts_iterate G ef fuel board N t rng = (Except.ok t2, rng2) ∧
        t2.child_nodes ≠ [] ∧
        (∀ c ∈ t2.child_nodes,
          c.player = player ∧ c.move ∈ G.get_valid_moves board ∧
          c.win_count ≤ c.visit_count) ∧
        ((∀ c ∈ t2.child_nodes, c.visit_count = 0) → N = 0 ∧ t2 = t) := by
  intro N
  induction N with
  | zero =>
    intro t rng hne hprops
    exact ⟨t, rng, rfl, hne, hprops, fun _ => ⟨rfl, rfl⟩⟩
  | succ n ih =>
    intro t rng hne hprops
    obtain ⟨i, chosen, hsel, hget⟩ := select_child_some ef t.root t.child_nodes hne
    have hchosen_mem : chosen ∈ t.child_nodes := List.getElem?_mem hget
    obtain ⟨hcp, hcm, _⟩ := hprops chosen hchosen_mem
    obtain ⟨w, rng2, hplay⟩ := hsim chosen hcp hcm rng
    have hi : i < t.child_nodes.length := by
      rcases List.getElem?_eq_some_iff.mp hget with ⟨h, _⟩
      exact h
    have hlen : (backpropagate t i w).child_nodes.length = t.child_nodes.length := by
      simp [backpropagate]
    have hne2 : (backpropagate t i w).child_nodes ≠ [] := by
      intro hnil
      apply hne
      apply List.eq_nil_of_length_eq_zero
      rw [← hlen, hnil]
      rfl
    obtain ⟨t2, rng3, hiter, hne3, hprops3, hzero⟩ :=
      ih (backpropagate t i w) rng2 hne2 (backpropagate_props G board player t i w hprops)
    refine ⟨t2, rng3, ?_, hne3, hprops3, ?_⟩
    · simp only [mcts_iterate, hsel, hplay]
      exact hiter
    · intro hallzero
      obtain ⟨_, ht2⟩ := hzero hallzero
      obtain ⟨c, hc_mem, hc_vis⟩ := backpropagate_child_visited t i w hi
      rw [← ht2] at hc_mem
      exact absurd (hallzero c hc_mem) hc_vis

/-- C6 (amended): provided the board offers at least one legal move (otherwise
the search loop performs an out-of-bounds child access before the budget ever
elapses) and every rollout returns, the timed loop completes, and choose_move
fails with the insufficient-statistics error if and only if no root child has
a positive visit count; it then returns no move.  The source defines no
separate no-legal-moves failure for the caller to distinguish this from. -/
theorem c6_insufficient_statistics {B : Type} (G : Game B) (ef : ℝ) (board : B)
    (player : Cell_state) (N fuel : ℕ) (rng : Rng)
    (hne : G.get_valid_moves board ≠ [])
    (hsim : ∀ c : Node, c.player = player → c.move ∈ G.get_valid_moves board →
      ∀ r : Rng, ∃ w r2, simulate_random_playout G c board r fuel = Except.ok (w, r2)) :
    ∃ t2 rng2,
      mcts_iterate G ef fuel board N (init_tree G player board) rng = (Except.ok t2, rng2) ∧
      (((choose_move G ef board player N fuel rng).1 =
          Except.error Mcts_error.insufficient_statistics) ↔
        ∀ c ∈ t2.child_nodes, c.visit_count = 0) := by
  have hne0 : (init_tree G player board).child_nodes ≠ [] := by
    simp only [init_tree, expand_node]
    rw [Ne, List.map_eq_nil_iff]
    exact hne
  have hprops0 : ∀ c ∈ (init_tree G player board).child_nodes,
      c.player = player ∧ c.move ∈ G.get_valid_moves board ∧
      c.win_count ≤ c.visit_count := by
    intro c hc
    simp only [init_tree, expand_node] at hc
    rw [List.mem_map] at hc
    obtain ⟨m, hm, hmc⟩ := hc
    rw [← hmc]
    exact ⟨rfl, hm, Nat.le_refl 0⟩
  obtain ⟨t2, rng2, hiter, hne2, hprops2, _⟩ :=
    mcts_iterate_flow G ef fuel board player hsim N (init_tree G player board) rng hne0 hprops0
  refine ⟨t2, rng2, hiter, ?_⟩
  have hinv2 : ∀ c ∈ t2.child_nodes, c.win_count ≤ c.visit_count :=
    fun c hc => (hprops2 c hc).2.2
  constructor
  · intro herr
    cases hdec : decide_best t2.child_nodes with
    | none => exact (decide_best_none_iff t2.child_nodes hinv2).mp hdec
    | some b =>
      rw [choose_move] at herr
      simp only [hiter, hdec] at herr
      exact absurd herr (by simp)
  · intro hallzero
    have hdec : decide_best t2.child_nodes = none :=
      (decide_best_none_iff t2.child_nodes hinv2).mpr hallzero
    rw [choose_move]
    simp only [hiter, hdec]

/-- Witness for C6: on the concrete one-move game with a zero iteration
budget, the loop completes and the equivalence holds at the resulting tree. -/
theorem c6_witness :
    ∃ t2 rng2,
      mcts_iterate one_move_game 0 0 0 0 (init_tree one_move_game Cell_state.Blue 0) rng0 =
        (Except.ok t2, rng2) ∧
      (((choose_move one_move_game 0 0 Cell_state.Blue 0 0 rng0).1 =
          Except.error Mcts_error.insufficient_statistics) ↔
        ∀ c ∈ t2.child_nodes, c.visit_count = 0) :=
  c6_insufficient_statistics one_move_game 0 0 Cell_state.Blue 0 0 rng0
    (by simp [one_move_game])
    (fun c _ _ r => ⟨c.player, r, by simp [simulate_random_playout, playout_loop, one_move_game]⟩)

/-- Witness for C4: on the concrete one-move game the node's own move decides
the game, and the playout indeed returns the node's own player. -/
theorem c4_witness :
    (one_move_game.check_winner (one_move_game.make_move 0 (0, 0) Cell_state.Blue) ≠
      Cell_state.Empty) ∧
    simulate_random_playout one_move_game (Node.init Cell_state.Blue (0, 0)) 0 rng0 3 =
      Except.ok (Cell_state.Blue, rng0) := by
  have hw : one_move_game.check_winner (one_move_game.make_move 0 (0, 0) Cell_state.Blue) ≠
      Cell_state.Empty := by decide
  exact ⟨hw, (c4_playout_behavior one_move_game (Node.init Cell_state.Blue (0, 0)) 0 rng0 3).1 hw⟩

end Mcts
